import Mathlib

/-!
A verification development for the G-MAB genetic-algorithm core
(`src/genetic.rs`).

Embedding conventions:

* `Arm` (defined in `src/arm.rs`, which is not part of the sources given) is
  modelled from the spec as its ordered integer action vector; arm equality is
  element-wise vector equality.
* Rust `f64` values produced by the random source (uniform draws in `[0,1)`
  and Gaussian perturbations) are modelled as exact rationals supplied by
  explicit oracle streams; a uniform draw `u` carries the contract
  `0 ≤ u < 1`.  `f64 → i32` conversion after clamping is truncation toward
  zero (`ratTrunc`).
* `rng.gen_range(lo..=hi)` is modelled by `genRange`/`genRangeNat`: it
  consumes one raw entropy value `d : Nat` and returns `lo + d % (hi-lo+1)`,
  which is exactly the inclusive-range contract of the `rand` crate; an empty
  range (`hi < lo`) panics, modelled as `none`.
* Rust panics (out-of-range indexing, empty `gen_range`, `Normal::new`
  failure on a negative standard deviation) are modelled as `Option.none`.
* `i32` arithmetic is modelled on `Int` with explicit two's-complement
  wrapping (`wrap32`), matching release-mode overflow behaviour of
  `simulations_used += n`.
* The `while` loop of `generate_new_population` is given explicit fuel;
  running out of fuel also yields `none` (the loop has not terminated yet).
* The stored objective function `opti_function` is never applied by any of
  the embedded operations, so it is omitted from the state.
-/

namespace GMab

/-- Modelled from the spec: `Arm` lives in `src/arm.rs`, which is missing from
the given sources.  Per the spec, an arm is "an ordered integer vector
representing one point in the search space, compared for equality/uniqueness
by vector content", constructed by `Arm::new(&vec)` and read back by
`get_action_vector`.  We therefore represent an arm by its action vector. -/
abbrev Arm := List Int

/-- The `GeneticAlgorithm` struct of `src/genetic.rs` (the unused
`opti_function` field is omitted; see the module docstring). -/
structure GeneticAlgorithm where
  mutation_rate : ℚ
  crossover_rate : ℚ
  mutation_span : ℚ
  population_size : Nat
  max_simulations : Int
  dimension : Nat
  lower_bound : List Int
  upper_bound : List Int
  simulations_used : Int
deriving Repr, DecidableEq

/-- Two's-complement wrapping of an unbounded integer into `i32`. -/
def wrap32 (x : Int) : Int := (x + 2 ^ 31) % 2 ^ 32 - 2 ^ 31

/-- Embeds `GeneticAlgorithm::new`: stores the configuration verbatim and starts the
counter at zero.  The Rust constructor performs no validation whatsoever. -/
def GeneticAlgorithm.new (population_size : Nat)
    (mutation_rate crossover_rate mutation_span : ℚ) (max_simulations : Int)
    (dimension : Nat) (lower_bound upper_bound : List Int) :
    GeneticAlgorithm :=
  { mutation_rate := mutation_rate
    crossover_rate := crossover_rate
    mutation_span := mutation_span
    population_size := population_size
    max_simulations := max_simulations
    dimension := dimension
    lower_bound := lower_bound
    upper_bound := upper_bound
    simulations_used := 0 }

/-- Embeds `GeneticAlgorithm::update_simulations_used`:
`self.simulations_used += number_of_new_simulations` on `i32`. -/
def GeneticAlgorithm.update_simulations_used (ga : GeneticAlgorithm)
    (number_of_new_simulations : Int) : GeneticAlgorithm :=
  { ga with simulations_used :=
      wrap32 (ga.simulations_used + number_of_new_simulations) }

/-- Embeds `GeneticAlgorithm::budget_reached`:
`self.simulations_used >= self.max_simulations`. -/
def GeneticAlgorithm.budget_reached (ga : GeneticAlgorithm) : Bool :=
  ga.max_simulations ≤ ga.simulations_used

/-- An integer representable in `i32`. -/
def InI32 (x : Int) : Prop := -(2 ^ 31) ≤ x ∧ x < 2 ^ 31

instance (x : Int) : Decidable (InI32 x) := by unfold InI32; infer_instance

/-- Truncation toward zero of a rational, the semantics of Rust's `as i32`
conversion from `f64` (for values that fit in `i32`). -/
def ratTrunc (q : ℚ) : Int := if 0 ≤ q then q.floor else -(-q).floor

/-- Embeds `rng.gen_range(lo..=hi)` on `i32`: consumes one raw entropy value `d` and
returns a value in the inclusive range `[lo, hi]`; an empty range panics
(`none`). -/
def genRange (lo hi : Int) (d : Nat) : Option Int :=
  if lo ≤ hi then some (lo + (d : Int) % (hi - lo + 1)) else none

/-- Embeds `rng.gen_range(lo..=hi)` on `usize`. -/
def genRangeNat (lo hi : Nat) (d : Nat) : Option Nat :=
  if lo ≤ hi then some (lo + d % (hi - lo + 1)) else none

/-- Effectful map over a list in the `Option` monad: the first `none`
(a panic in Rust) aborts the whole computation.  This is the collection
behaviour of Rust iterator chains such as `(0..dimension).map(...).collect()`
when the body can panic. -/
def optionTraverse {α β : Type} (f : α → Option β) : List α → Option (List β)
  | [] => some []
  | a :: l =>
    match f a, optionTraverse f l with
    | some b, some r => some (b :: r)
    | _, _ => none

/-- One candidate draw of `generate_new_population`: for each `j < dimension`,
index the bound vectors (panic = `none` when out of range) and sample
`gen_range(lower_bound[j]..=upper_bound[j])`. -/
def genCandidate (ga : GeneticAlgorithm) (d : Nat → Nat) : Option (List Int) :=
  optionTraverse (fun j =>
    match ga.lower_bound[j]?, ga.upper_bound[j]? with
    | some lo, some hi => genRange lo hi (d j)
    | _, _ => none) (List.range ga.dimension)

/-- The `while individuals.len() < population_size` loop of
`generate_new_population`, with explicit fuel; running out of fuel (the loop
has not yet terminated) is `none`, as is a panic inside the loop body.
`attempt` numbers the candidate draws so that each loop iteration consumes
fresh entropy from the oracle `ds`. -/
def generateLoop (ga : GeneticAlgorithm) (ds : Nat → Nat → Nat) :
    Nat → Nat → List Arm → Option (List Arm)
  | fuel, attempt, individuals =>
    if individuals.length < ga.population_size then
      match fuel with
      | 0 => none
      | fuel' + 1 =>
        match genCandidate ga (ds attempt) with
        | none => none
        | some c =>
          if c ∈ individuals then generateLoop ga ds fuel' (attempt + 1) individuals
          else generateLoop ga ds fuel' (attempt + 1) (individuals ++ [c])
    else some individuals

/-- Embeds `GeneticAlgorithm::generate_new_population`. -/
def GeneticAlgorithm.generate_new_population (ga : GeneticAlgorithm)
    (ds : Nat → Nat → Nat) (fuel : Nat) : Option (List Arm) :=
  generateLoop ga ds fuel 0 []

/-- Every gene of `arm` lies within the configured per-dimension bounds, and
the arm has the configured dimension. -/
def InBounds (ga : GeneticAlgorithm) (arm : Arm) : Prop :=
  arm.length = ga.dimension ∧
  ∀ i, i < ga.dimension →
    ga.lower_bound.getD i 0 ≤ arm.getD i 0 ∧ arm.getD i 0 ≤ ga.upper_bound.getD i 0

instance (ga : GeneticAlgorithm) (arm : Arm) : Decidable (InBounds ga arm) := by
  unfold InBounds
  exact instDecidableAnd

/-- Rust slice `&v[0..j]` (panics when `j > v.len()`). -/
def sliceTo (v : List Int) (j : Nat) : Option (List Int) :=
  if j ≤ v.length then some (v.take j) else none

/-- Rust slice `&v[j..=m]` (panics when `j > m + 1` or `m ≥ v.len()`). -/
def sliceIncl (v : List Int) (j m : Nat) : Option (List Int) :=
  if j ≤ m + 1 ∧ m < v.length then some ((v.drop j).take (m + 1 - j)) else none

/-- The inner `for j in 1..=max_dim_index` loop of `crossover`: when
`swap_rv == j`, build the two children by splicing the parents at `j` and
push both; every other iteration is a no-op. -/
def crossChildren (dim : Nat) (swapRv : Nat) (a b : Arm) : Option (List Arm) :=
  (List.range' 1 (dim - 1)).foldl (fun acc j =>
    if swapRv = j then
      match acc, sliceTo a j, sliceIncl b j (dim - 1), sliceTo b j, sliceIncl a j (dim - 1) with
      | some cur, some p1, some s1, some p2, some s2 =>
        some (cur ++ [p1 ++ s1, p2 ++ s2])
      | _, _, _, _, _ => none
    else acc) (some [])

/-- One iteration of the `for i in (0..population_size).step_by(2)` loop of
`crossover`, for the pair at indices `(2*pairIdx, 2*pairIdx + 1)`: draw the
per-pair uniform value; on crossover, draw `swap_rv` from
`1..=max_dim_index` and emit the two spliced children, otherwise copy both
parents.  Out-of-range indexing panics (`none`). -/
def crossPairHead (ga : GeneticAlgorithm) (pop : List Arm) (us : Nat → ℚ)
    (ds : Nat → Nat) (pairIdx : Nat) : Option (List Arm) :=
  if us pairIdx < ga.crossover_rate then
    match genRangeNat 1 (ga.dimension - 1) (ds pairIdx) with
    | none => none
    | some swapRv =>
      match pop[2 * pairIdx]?, pop[2 * pairIdx + 1]? with
      | some a, some b => crossChildren ga.dimension swapRv a b
      | _, _ => none
  else
    match pop[2 * pairIdx]?, pop[2 * pairIdx + 1]? with
    | some a, some b => some [a, b]
    | _, _ => none

/-- The pair loop of `crossover`: `k` pairs remain, the next pair index is
`pairIdx`; the emitted children of each pair are appended in input pair
order. -/
def crossoverGo (ga : GeneticAlgorithm) (pop : List Arm) (us : Nat → ℚ)
    (ds : Nat → Nat) : Nat → Nat → Option (List Arm)
  | 0, _ => some []
  | k + 1, pairIdx =>
    match crossPairHead ga pop us ds pairIdx with
    | none => none
    | some hd =>
      match crossoverGo ga pop us ds k (pairIdx + 1) with
      | none => none
      | some rest => some (hd ++ rest)

/-- Embeds `GeneticAlgorithm::crossover`: iterate `i = 0, 2, 4, ...` below
`population_size`, i.e. `⌈population_size / 2⌉` pairs. -/
def GeneticAlgorithm.crossover (ga : GeneticAlgorithm) (pop : List Arm)
    (us : Nat → ℚ) (ds : Nat → Nat) : Option (List Arm) :=
  crossoverGo ga pop us ds ((ga.population_size + 1) / 2) 0

/-- The per-gene mutated value of `mutate`:
`(*value as f64 + adjustment).max(lower_bound[i] as f64).min(upper_bound[i] as f64) as i32`
— perturb, clamp with `.max(lo).min(hi)`, then truncate toward zero.  The
clamped value lies in `[lo, hi] ⊆ i32`, so the `as i32` conversion never
saturates. -/
def mutGene (lo hi : Int) (v : Int) (adj : ℚ) : Int :=
  ratTrunc (min (max ((v : ℚ) + adj) (lo : ℚ)) (hi : ℚ))

/-- The per-candidate body of `mutate`: walk the action vector; for each gene
draw a uniform value, and if it is below `mutation_rate`, sample a Gaussian
perturbation (oracle `adj`; `Normal::new` panics via `.unwrap()` when the
standard deviation `mutation_span * (upper_bound[i] - lower_bound[i])` is
negative) and replace the gene by its perturbed, clamped, truncated value. -/
def mutateArm (ga : GeneticAlgorithm) (u : Nat → ℚ) (adj : Nat → ℚ) (arm : Arm) :
    Option Arm :=
  optionTraverse (fun i =>
    match arm[i]? with
    | none => none
    | some v =>
      if u i < ga.mutation_rate then
        match ga.lower_bound[i]?, ga.upper_bound[i]? with
        | some lo, some hi =>
          if 0 ≤ ga.mutation_span * ((hi : ℚ) - (lo : ℚ)) then
            some (mutGene lo hi v (adj i))
          else none
        | _, _ => none
      else some v) (List.range arm.length)

/-- The candidate loop of `mutate`: mutate each individual in input order and
keep it only if its action vector has not been emitted earlier in this call
(`seen.insert` on a `HashSet` keyed by vector equality). -/
def mutateLoop (ga : GeneticAlgorithm) (us adjs : Nat → Nat → ℚ) :
    List Arm → Nat → List Arm → List Arm → Option (List Arm)
  | [], _, _, out => some out
  | a :: rest, idx, seen, out =>
    match mutateArm ga (us idx) (adjs idx) a with
    | none => none
    | some na =>
      if na ∈ seen then mutateLoop ga us adjs rest (idx + 1) seen out
      else mutateLoop ga us adjs rest (idx + 1) (na :: seen) (out ++ [na])

/-- Embeds `GeneticAlgorithm::mutate`. -/
def GeneticAlgorithm.mutate (ga : GeneticAlgorithm) (pop : List Arm)
    (us adjs : Nat → Nat → ℚ) : Option (List Arm) :=
  mutateLoop ga us adjs pop 0 [] []

/-- Keep only the first occurrence of each vector, preserving input order:
the reference behaviour of duplicate suppression in `mutate`. -/
def dedupFirst : List Arm → List Arm
  | [] => []
  | a :: l => a :: dedupFirst (l.filter (fun x => x ≠ a))
termination_by l => l.length
decreasing_by
  simp only [List.length_cons]
  exact Nat.lt_succ_of_le (List.length_filter_le _ _)

/-! ## Helper lemmas -/

theorem wrap32_of_inI32 {x : Int} (h : InI32 x) : wrap32 x = x := by
  obtain ⟨h1, h2⟩ := h
  unfold wrap32
  omega

theorem ratFloor_eq (q : ℚ) : q.floor = ⌊q⌋ := by
  rw [Rat.floor_def', Rat.floor_def]

theorem ratTrunc_eq (q : ℚ) : ratTrunc q = if 0 ≤ q then ⌊q⌋ else ⌈q⌉ := by
  unfold ratTrunc
  rw [ratFloor_eq, ratFloor_eq, Int.floor_neg, neg_neg]

theorem ratTrunc_le {q : ℚ} {hi : Int} (h : q ≤ (hi : ℚ)) : ratTrunc q ≤ hi := by
  rw [ratTrunc_eq]
  split
  · exact_mod_cast (Int.floor_le_floor h).trans_eq (Int.floor_intCast hi)
  · exact Int.ceil_le.mpr h

theorem le_ratTrunc {q : ℚ} {lo : Int} (h : (lo : ℚ) ≤ q) : lo ≤ ratTrunc q := by
  rw [ratTrunc_eq]
  split
  · exact Int.le_floor.mpr h
  · exact ((Int.ceil_intCast (α := ℚ) lo).symm.trans_le (Int.ceil_le_ceil h))

theorem ratTrunc_intCast (n : Int) : ratTrunc ((n : Int) : ℚ) = n := by
  rw [ratTrunc_eq]
  split
  · exact Int.floor_intCast n
  · exact Int.ceil_intCast n

theorem genRange_some {lo hi : Int} {d : Nat} {v : Int}
    (h : genRange lo hi d = some v) : lo ≤ v ∧ v ≤ hi := by
  unfold genRange at h
  split at h
  · rename_i hle
    obtain rfl : v = lo + (d : Int) % (hi - lo + 1) := (Option.some.inj h).symm
    have hpos : (0 : Int) < hi - lo + 1 := by omega
    have h1 := Int.emod_nonneg (d : Int) (by omega : hi - lo + 1 ≠ 0)
    have h2 := Int.emod_lt_of_pos (d : Int) hpos
    omega
  · exact absurd h (by simp)

theorem genRangeNat_some {lo hi : Nat} {d : Nat} {v : Nat}
    (h : genRangeNat lo hi d = some v) : lo ≤ v ∧ v ≤ hi := by
  unfold genRangeNat at h
  split at h
  · rename_i hle
    obtain rfl : v = lo + d % (hi - lo + 1) := (Option.some.inj h).symm
    have h2 := Nat.mod_lt d (y := hi - lo + 1) (by omega)
    omega
  · exact absurd h (by simp)

theorem optionTraverse_eq_some {α β : Type} {f : α → Option β} :
    ∀ {l : List α} {r : List β},
      optionTraverse f l = some r ↔ List.Forall₂ (fun a b => f a = some b) l r := by
  intro l
  induction l with
  | nil =>
    intro r
    constructor
    · intro h
      obtain rfl : [] = r := Option.some.inj h
      exact .nil
    · intro h
      cases h
      rfl
  | cons a t ih =>
    intro r
    constructor
    · intro h
      rw [optionTraverse] at h
      cases hb : f a with
      | none => rw [hb] at h; exact absurd h (by simp)
      | some b =>
        cases ht : optionTraverse f t with
        | none => rw [hb, ht] at h; exact absurd h (by simp)
        | some r' =>
          rw [hb, ht] at h
          obtain rfl : b :: r' = r := Option.some.inj h
          exact .cons hb (ih.mp ht)
    · intro h
      cases h with
      | cons hb ht =>
        rw [optionTraverse, hb, ih.mpr ht]

theorem genCandidate_some {ga : GeneticAlgorithm} {d : Nat → Nat} {c : List Int}
    (h : genCandidate ga d = some c) :
    c.length = ga.dimension ∧
    ∀ j, j < ga.dimension →
      ga.lower_bound.getD j 0 ≤ c.getD j 0 ∧ c.getD j 0 ≤ ga.upper_bound.getD j 0 := by
  have h2 := optionTraverse_eq_some.mp h
  rw [List.forall₂_iff_get] at h2
  obtain ⟨hlen, hget⟩ := h2
  rw [List.length_range] at hlen
  refine ⟨hlen.symm, fun j hj => ?_⟩
  have hj1 : j < (List.range ga.dimension).length := by
    rw [List.length_range]; exact hj
  have hj2 : j < c.length := by omega
  have hR := hget j hj1 hj2
  rw [List.get_eq_getElem, List.get_eq_getElem, List.getElem_range] at hR
  cases hlo : ga.lower_bound[j]? with
  | none => rw [hlo] at hR; exact absurd hR (by simp)
  | some lo =>
    cases hhi : ga.upper_bound[j]? with
    | none => rw [hlo, hhi] at hR; exact absurd hR (by simp)
    | some hi =>
      rw [hlo, hhi] at hR
      have hb := genRange_some hR
      rw [List.getD_eq_getElem?_getD, List.getD_eq_getElem?_getD, List.getD_eq_getElem?_getD,
        hlo, hhi, List.getElem?_eq_getElem hj2]
      simpa using hb

theorem generateLoop_invariant (ga : GeneticAlgorithm) (ds : Nat → Nat → Nat) :
    ∀ (fuel attempt : Nat) (acc pop : List Arm),
      acc.length ≤ ga.population_size → acc.Nodup → (∀ a ∈ acc, InBounds ga a) →
      generateLoop ga ds fuel attempt acc = some pop →
      pop.length = ga.population_size ∧ pop.Nodup ∧ ∀ a ∈ pop, InBounds ga a := by
  intro fuel
  induction fuel with
  | zero =>
    intro attempt acc pop hlen _ _ h
    rw [generateLoop] at h
    split at h
    · exact absurd h (by simp)
    · obtain rfl : acc = pop := Option.some.inj h
      refine ⟨by omega, by assumption, by assumption⟩
  | succ fuel ih =>
    intro attempt acc pop hlen hnd hib h
    rw [generateLoop] at h
    split at h
    · rename_i hlt
      cases hgc : genCandidate ga (ds attempt) with
      | none => rw [hgc] at h; exact absurd h (by simp)
      | some c =>
        rw [hgc] at h
        simp only at h
        have hcspec := genCandidate_some hgc
        split at h
        · exact ih (attempt + 1) acc pop hlen hnd hib h
        · rename_i hcmem
          refine ih (attempt + 1) (acc ++ [c]) pop ?_ ?_ ?_ h
          · rw [List.length_append, List.length_singleton]; omega
          · simp [List.nodup_append, hnd, hcmem]
          · intro a ha
            rcases List.mem_append.mp ha with ha | ha
            · exact hib a ha
            · obtain rfl : a = c := by simpa using ha
              exact ⟨hcspec.1, hcspec.2⟩
    · obtain rfl : acc = pop := Option.some.inj h
      refine ⟨by omega, hnd, hib⟩

theorem crossChildren_foldl_of_not_mem {dim : Nat} {swapRv : Nat} {a b : Arm} :
    ∀ (l : List Nat) (acc : Option (List Arm)), swapRv ∉ l →
      l.foldl (fun acc j =>
        if swapRv = j then
          match acc, sliceTo a j, sliceIncl b j (dim - 1), sliceTo b j,
              sliceIncl a j (dim - 1) with
          | some cur, some p1, some s1, some p2, some s2 =>
            some (cur ++ [p1 ++ s1, p2 ++ s2])
          | _, _, _, _, _ => none
        else acc) acc = acc := by
  intro l
  induction l with
  | nil => intro acc _; rfl
  | cons j t ih =>
    intro acc hmem
    rw [List.foldl_cons, if_neg (by
      intro hEq
      exact hmem (by rw [hEq]; exact List.mem_cons_self j t))]
    exact ih acc (fun ht => hmem (List.mem_cons_of_mem j ht))

theorem crossChildren_eq {dim j : Nat} {a b : Arm} (hj1 : 1 ≤ j) (hj2 : j ≤ dim - 1)
    (ha : dim ≤ a.length) (hb : dim ≤ b.length) :
    crossChildren dim j a b =
      some [a.take j ++ (b.drop j).take (dim - j), b.take j ++ (a.drop j).take (dim - j)] := by
  have hdim : 2 ≤ dim := by omega
  unfold crossChildren
  have hA := List.range'_append 1 (j - 1) (dim - j) 1
  simp only [one_mul] at hA
  rw [show (1 : Nat) + (j - 1) = j by omega,
    show dim - j + (j - 1) = dim - 1 by omega] at hA
  have hB : List.range' j (dim - j) = j :: List.range' (j + 1) (dim - j - 1) := by
    have h0 : dim - j = (dim - j - 1) + 1 := by omega
    rw [h0, List.range'_succ]
    simp
  rw [← hA, hB, List.foldl_append, List.foldl_cons]
  rw [crossChildren_foldl_of_not_mem _ _ (by
    intro hmem
    have := List.mem_range'_1.mp hmem
    omega)]
  rw [if_pos rfl]
  rw [show sliceTo a j = some (a.take j) from if_pos (by omega),
    show sliceTo b j = some (b.take j) from if_pos (by omega),
    show sliceIncl b j (dim - 1) = some ((b.drop j).take (dim - 1 + 1 - j)) from
      if_pos (by omega),
    show sliceIncl a j (dim - 1) = some ((a.drop j).take (dim - 1 + 1 - j)) from
      if_pos (by omega)]
  rw [crossChildren_foldl_of_not_mem _ _ (by
    intro hmem
    have := List.mem_range'_1.mp hmem
    omega)]
  rw [show dim - 1 + 1 - j = dim - j by omega]
  rfl

theorem crossChildren_some {dim j : Nat} {a b : Arm} {hd : List Arm}
    (hj1 : 1 ≤ j) (hj2 : j ≤ dim - 1)
    (h : crossChildren dim j a b = some hd) :
    hd = [a.take j ++ (b.drop j).take (dim - j), b.take j ++ (a.drop j).take (dim - j)] := by
  unfold crossChildren at h
  have hA := List.range'_append 1 (j - 1) (dim - j) 1
  simp only [one_mul] at hA
  rw [show (1 : Nat) + (j - 1) = j by omega,
    show dim - j + (j - 1) = dim - 1 by omega] at hA
  have hB : List.range' j (dim - j) = j :: List.range' (j + 1) (dim - j - 1) := by
    have h0 : dim - j = (dim - j - 1) + 1 := by omega
    rw [h0, List.range'_succ]
    simp
  have hnm1 : j ∉ List.range' 1 (j - 1) := by
    intro hmem
    have := List.mem_range'_1.mp hmem
    omega
  have hnm2 : j ∉ List.range' (j + 1) (dim - j - 1) := by
    intro hmem
    have := List.mem_range'_1.mp hmem
    omega
  rw [← hA, hB, List.foldl_append, List.foldl_cons,
    crossChildren_foldl_of_not_mem _ _ hnm1, if_pos rfl,
    crossChildren_foldl_of_not_mem _ _ hnm2] at h
  split at h
  · rename_i cur p1 s1 p2 s2 hcur hp1 hs1 hp2 hs2
    obtain rfl : [] = cur := Option.some.inj hcur
    unfold sliceTo at hp1 hp2
    unfold sliceIncl at hs1 hs2
    split at hp1
    · obtain rfl : a.take j = p1 := Option.some.inj hp1
      split at hs1
      · obtain rfl : (b.drop j).take (dim - 1 + 1 - j) = s1 := Option.some.inj hs1
        split at hp2
        · obtain rfl : b.take j = p2 := Option.some.inj hp2
          split at hs2
          · obtain rfl : (a.drop j).take (dim - 1 + 1 - j) = s2 := Option.some.inj hs2
            rw [← Option.some.inj h, show dim - 1 + 1 - j = dim - j by omega]
            rfl
          · exact absurd hs2 (by simp)
        · exact absurd hp2 (by simp)
      · exact absurd hs1 (by simp)
    · exact absurd hp1 (by simp)
  · exact absurd h (by simp)

theorem crossPairHead_some_length {ga : GeneticAlgorithm} {pop : List Arm}
    {us : Nat → ℚ} {ds : Nat → Nat} {p : Nat} {hd : List Arm}
    (h : crossPairHead ga pop us ds p = some hd) : hd.length = 2 := by
  unfold crossPairHead at h
  split at h
  · cases hsw : genRangeNat 1 (ga.dimension - 1) (ds p) with
    | none => rw [hsw] at h; exact absurd h (by simp)
    | some swapRv =>
      rw [hsw] at h
      obtain ⟨hj1, hj2⟩ := genRangeNat_some hsw
      cases ha : pop[2 * p]? with
      | none => rw [ha] at h; exact absurd h (by simp)
      | some a =>
        cases hb : pop[2 * p + 1]? with
        | none => rw [ha, hb] at h; exact absurd h (by simp)
        | some b =>
          rw [ha, hb] at h
          simp only at h
          rw [crossChildren_some hj1 hj2 h]
          rfl
  · cases ha : pop[2 * p]? with
    | none => rw [ha] at h; exact absurd h (by simp)
    | some a =>
      cases hb : pop[2 * p + 1]? with
      | none => rw [ha, hb] at h; exact absurd h (by simp)
      | some b =>
        rw [ha, hb] at h
        simp only at h
        rw [← Option.some.inj h]
        rfl

theorem crossPairHead_none_of_oob {ga : GeneticAlgorithm} {pop : List Arm}
    {us : Nat → ℚ} {ds : Nat → Nat} {p : Nat}
    (h : pop.length ≤ 2 * p + 1) : crossPairHead ga pop us ds p = none := by
  have hb : pop[2 * p + 1]? = none := List.getElem?_eq_none h
  unfold crossPairHead
  split
  · cases genRangeNat 1 (ga.dimension - 1) (ds p) with
    | none => rfl
    | some swapRv =>
      rw [hb]
      cases pop[2 * p]? <;> rfl
  · rw [hb]
    cases pop[2 * p]? <;> rfl

theorem crossPairHead_some_of {ga : GeneticAlgorithm} {pop : List Arm}
    {us : Nat → ℚ} {ds : Nat → Nat} {p : Nat}
    (hdim : 2 ≤ ga.dimension) (harms : ∀ a ∈ pop, a.length = ga.dimension)
    (hlt : 2 * p + 1 < pop.length) :
    ∃ hd, crossPairHead ga pop us ds p = some hd := by
  have hp0 : 2 * p < pop.length := by omega
  have ha : pop[2 * p]? = some pop[2 * p] := List.getElem?_eq_getElem hp0
  have hb : pop[2 * p + 1]? = some pop[2 * p + 1] := List.getElem?_eq_getElem hlt
  have hla : ga.dimension ≤ (pop[2 * p] : Arm).length :=
    le_of_eq (harms _ (List.getElem?_mem ha)).symm
  have hlb : ga.dimension ≤ (pop[2 * p + 1] : Arm).length :=
    le_of_eq (harms _ (List.getElem?_mem hb)).symm
  unfold crossPairHead
  split
  · have hsw : genRangeNat 1 (ga.dimension - 1) (ds p) =
        some (1 + ds p % (ga.dimension - 1 - 1 + 1)) := if_pos (by omega)
    rw [hsw, ha, hb]
    simp only
    obtain ⟨hj1, hj2⟩ := genRangeNat_some hsw
    rw [crossChildren_eq hj1 hj2 hla hlb]
    exact ⟨_, rfl⟩
  · rw [ha, hb]
    exact ⟨_, rfl⟩

theorem InBounds_splice {ga : GeneticAlgorithm} {a b : Arm} {j : Nat}
    (ha : InBounds ga a) (hb : InBounds ga b) (hj : j ≤ ga.dimension) :
    InBounds ga (a.take j ++ (b.drop j).take (ga.dimension - j)) := by
  obtain ⟨hal, hag⟩ := ha
  obtain ⟨hbl, hbg⟩ := hb
  have hlt : (a.take j).length = j := by
    rw [List.length_take]
    omega
  constructor
  · rw [List.length_append, hlt, List.length_take, List.length_drop, hbl]
    omega
  · intro i hi
    rcases lt_or_le i j with hij | hij
    · have hidx : (a.take j ++ (b.drop j).take (ga.dimension - j))[i]? = a[i]? := by
        rw [List.getElem?_append_left (by omega), List.getElem?_take_of_lt hij]
      simp only [List.getD_eq_getElem?_getD] at hag ⊢
      rw [hidx]
      exact hag i hi
    · have hidx : (a.take j ++ (b.drop j).take (ga.dimension - j))[i]? = b[i]? := by
        rw [List.getElem?_append_right (by omega), hlt,
          List.getElem?_take_of_lt (by omega), List.getElem?_drop,
          show j + (i - j) = i by omega]
      simp only [List.getD_eq_getElem?_getD] at hbg ⊢
      rw [hidx]
      exact hbg i hi

theorem crossoverGo_length {ga : GeneticAlgorithm} {pop : List Arm}
    {us : Nat → ℚ} {ds : Nat → Nat} :
    ∀ (k p : Nat) (out : List Arm), crossoverGo ga pop us ds k p = some out →
      out.length = 2 * k := by
  intro k
  induction k with
  | zero =>
    intro p out h
    obtain rfl : [] = out := Option.some.inj h
    rfl
  | succ k ih =>
    intro p out h
    rw [crossoverGo] at h
    cases hhd : crossPairHead ga pop us ds p with
    | none => rw [hhd] at h; exact absurd h (by simp)
    | some hd =>
      rw [hhd] at h
      cases hrest : crossoverGo ga pop us ds k (p + 1) with
      | none => rw [hrest] at h; exact absurd h (by simp)
      | some rest =>
        rw [hrest] at h
        simp only at h
        obtain rfl : hd ++ rest = out := Option.some.inj h
        rw [List.length_append, crossPairHead_some_length hhd, ih (p + 1) rest hrest]
        omega

theorem crossoverGo_getPairs {ga : GeneticAlgorithm} {pop : List Arm}
    {us : Nat → ℚ} {ds : Nat → Nat} :
    ∀ (k p : Nat) (out : List Arm), crossoverGo ga pop us ds k p = some out →
      ∀ m, m < k → ∃ hd, crossPairHead ga pop us ds (p + m) = some hd ∧
        out[2 * m]? = hd[0]? ∧ out[2 * m + 1]? = hd[1]? := by
  intro k
  induction k with
  | zero =>
    intro p out _ m hm
    exact absurd hm (by omega)
  | succ k ih =>
    intro p out h m hm
    rw [crossoverGo] at h
    cases hhd : crossPairHead ga pop us ds p with
    | none => rw [hhd] at h; exact absurd h (by simp)
    | some hd =>
      rw [hhd] at h
      cases hrest : crossoverGo ga pop us ds k (p + 1) with
      | none => rw [hrest] at h; exact absurd h (by simp)
      | some rest =>
        rw [hrest] at h
        simp only at h
        obtain rfl : hd ++ rest = out := Option.some.inj h
        have hhdlen := crossPairHead_some_length hhd
        cases m with
        | zero =>
          refine ⟨hd, by rw [Nat.add_zero]; exact hhd, ?_, ?_⟩
          · rw [List.getElem?_append_left (by omega)]
          · rw [List.getElem?_append_left (by omega)]
        | succ m =>
          obtain ⟨hd', hhd', h0, h1⟩ := ih (p + 1) rest hrest m (by omega)
          rw [show p + 1 + m = p + (m + 1) by omega] at hhd'
          refine ⟨hd', hhd', ?_, ?_⟩
          · rw [List.getElem?_append_right (by omega), hhdlen,
              show 2 * (m + 1) - 2 = 2 * m by omega]
            exact h0
          · rw [List.getElem?_append_right (by omega), hhdlen,
              show 2 * (m + 1) + 1 - 2 = 2 * m + 1 by omega]
            exact h1

theorem crossoverGo_copy {ga : GeneticAlgorithm} {pop : List Arm}
    {us : Nat → ℚ} {ds : Nat → Nat}
    (hrate : ∀ m, ¬ us m < ga.crossover_rate) :
    ∀ (k p : Nat), 2 * (p + k) ≤ pop.length →
      crossoverGo ga pop us ds k p = some ((pop.drop (2 * p)).take (2 * k)) := by
  intro k
  induction k with
  | zero =>
    intro p _
    rw [crossoverGo, List.take_zero]
  | succ k ih =>
    intro p hlen
    have h0 : 2 * p < pop.length := by omega
    have h1 : 2 * p + 1 < pop.length := by omega
    have hhd : crossPairHead ga pop us ds p =
        some [pop[2 * p], pop[2 * p + 1]] := by
      unfold crossPairHead
      rw [if_neg (hrate p), List.getElem?_eq_getElem h0, List.getElem?_eq_getElem h1]
    rw [crossoverGo, hhd, ih (p + 1) (by omega)]
    simp only
    congr 1
    have hd0 : pop.drop (2 * p) = pop[2 * p] :: pop.drop (2 * p + 1) :=
      List.drop_eq_getElem_cons h0
    have hd1 : pop.drop (2 * p + 1) = pop[2 * p + 1] :: pop.drop (2 * p + 2) := by
      have := List.drop_eq_getElem_cons h1
      rw [this]
    rw [show 2 * (k + 1) = (2 * k + 1) + 1 by omega, hd0, List.take_succ_cons, hd1,
      List.take_succ_cons, show 2 * (p + 1) = 2 * p + 2 by omega]
    rfl

theorem crossPairHead_take {ga : GeneticAlgorithm} {pop : List Arm}
    {us : Nat → ℚ} {ds : Nat → Nat} {p N : Nat} (h : 2 * p + 1 < N) :
    crossPairHead ga (pop.take N) us ds p = crossPairHead ga pop us ds p := by
  unfold crossPairHead
  rw [List.getElem?_take_of_lt (by omega), List.getElem?_take_of_lt h]

theorem crossoverGo_take {ga : GeneticAlgorithm} {pop : List Arm}
    {us : Nat → ℚ} {ds : Nat → Nat} {N : Nat} :
    ∀ (k p : Nat), 2 * (p + k) ≤ N →
      crossoverGo ga (pop.take N) us ds k p = crossoverGo ga pop us ds k p := by
  intro k
  induction k with
  | zero => intro p _; rfl
  | succ k ih =>
    intro p hlen
    rw [crossoverGo, crossoverGo, crossPairHead_take (by omega), ih (p + 1) (by omega)]

theorem crossoverGo_some {ga : GeneticAlgorithm} {pop : List Arm}
    {us : Nat → ℚ} {ds : Nat → Nat}
    (hdim : 2 ≤ ga.dimension) (harms : ∀ a ∈ pop, a.length = ga.dimension) :
    ∀ (k p : Nat), 2 * (p + k) ≤ pop.length →
      ∃ out, crossoverGo ga pop us ds k p = some out := by
  intro k
  induction k with
  | zero => intro p _; exact ⟨[], rfl⟩
  | succ k ih =>
    intro p hlen
    obtain ⟨hd, hhd⟩ := crossPairHead_some_of hdim harms (by omega : 2 * p + 1 < pop.length)
    obtain ⟨rest, hrest⟩ := ih (p + 1) (by omega)
    refine ⟨hd ++ rest, ?_⟩
    rw [crossoverGo, hhd, hrest]

theorem crossoverGo_none {ga : GeneticAlgorithm} {pop : List Arm}
    {us : Nat → ℚ} {ds : Nat → Nat}
    (hdim : 2 ≤ ga.dimension) (harms : ∀ a ∈ pop, a.length = ga.dimension) :
    ∀ (k p : Nat), pop.length < 2 * p + 2 * (k + 1) →
      crossoverGo ga pop us ds (k + 1) p = none := by
  intro k
  induction k with
  | zero =>
    intro p hlen
    rw [crossoverGo, crossPairHead_none_of_oob (by omega)]
  | succ k ih =>
    intro p hlen
    rcases lt_or_le (2 * p + 1) pop.length with hin | hout
    · obtain ⟨hd, hhd⟩ := crossPairHead_some_of hdim harms hin
      rw [crossoverGo, hhd, ih (p + 1) (by omega)]
    · rw [crossoverGo, crossPairHead_none_of_oob (by omega)]

theorem crossPairHead_inBounds {ga : GeneticAlgorithm} {pop : List Arm}
    {us : Nat → ℚ} {ds : Nat → Nat} {p : Nat} {hd : List Arm}
    (hib : ∀ a ∈ pop, InBounds ga a)
    (h : crossPairHead ga pop us ds p = some hd) :
    ∀ arm ∈ hd, InBounds ga arm := by
  unfold crossPairHead at h
  split at h
  · cases hsw : genRangeNat 1 (ga.dimension - 1) (ds p) with
    | none => rw [hsw] at h; exact absurd h (by simp)
    | some swapRv =>
      rw [hsw] at h
      obtain ⟨hj1, hj2⟩ := genRangeNat_some hsw
      cases ha : pop[2 * p]? with
      | none => rw [ha] at h; exact absurd h (by simp)
      | some a =>
        cases hb : pop[2 * p + 1]? with
        | none => rw [ha, hb] at h; exact absurd h (by simp)
        | some b =>
          rw [ha, hb] at h
          simp only at h
          have hiba := hib a (List.getElem?_mem ha)
          have hibb := hib b (List.getElem?_mem hb)
          rw [crossChildren_some hj1 hj2 h]
          intro arm harm
          rcases List.mem_cons.mp harm with rfl | harm
          · exact InBounds_splice hiba hibb (by omega)
          · rcases List.mem_cons.mp harm with rfl | harm
            · exact InBounds_splice hibb hiba (by omega)
            · exact absurd harm (by simp)
  · cases ha : pop[2 * p]? with
    | none => rw [ha] at h; exact absurd h (by simp)
    | some a =>
      cases hb : pop[2 * p + 1]? with
      | none => rw [ha, hb] at h; exact absurd h (by simp)
      | some b =>
        rw [ha, hb] at h
        simp only at h
        rw [← Option.some.inj h]
        intro arm harm
        rcases List.mem_cons.mp harm with rfl | harm
        · exact hib arm (List.getElem?_mem ha)
        · rcases List.mem_cons.mp harm with rfl | harm
          · exact hib arm (List.getElem?_mem hb)
          · exact absurd harm (by simp)

theorem crossoverGo_inBounds {ga : GeneticAlgorithm} {pop : List Arm}
    {us : Nat → ℚ} {ds : Nat → Nat}
    (hib : ∀ a ∈ pop, InBounds ga a) :
    ∀ (k p : Nat) (out : List Arm), crossoverGo ga pop us ds k p = some out →
      ∀ arm ∈ out, InBounds ga arm := by
  intro k
  induction k with
  | zero =>
    intro p out h
    obtain rfl : [] = out := Option.some.inj h
    intro arm harm
    exact absurd harm (by simp)
  | succ k ih =>
    intro p out h
    rw [crossoverGo] at h
    cases hhd : crossPairHead ga pop us ds p with
    | none => rw [hhd] at h; exact absurd h (by simp)
    | some hd =>
      rw [hhd] at h
      cases hrest : crossoverGo ga pop us ds k (p + 1) with
      | none => rw [hrest] at h; exact absurd h (by simp)
      | some rest =>
        rw [hrest] at h
        simp only at h
        obtain rfl : hd ++ rest = out := Option.some.inj h
        intro arm harm
        rcases List.mem_append.mp harm with harm | harm
        · exact crossPairHead_inBounds hib hhd arm harm
        · exact ih (p + 1) rest hrest arm harm

theorem mutGene_mem {lo hi v : Int} {adj : ℚ} (hlohi : lo ≤ hi) :
    lo ≤ mutGene lo hi v adj ∧ mutGene lo hi v adj ≤ hi := by
  unfold mutGene
  constructor
  · exact le_ratTrunc (le_min (le_max_right _ _) (by exact_mod_cast hlohi))
  · exact ratTrunc_le (min_le_right _ _)

theorem mutateArm_rate_nonpos {ga : GeneticAlgorithm} {u adj : Nat → ℚ} {arm : Arm}
    (hrate : ga.mutation_rate = 0) (hwf : ∀ i, 0 ≤ u i) :
    mutateArm ga u adj arm = some arm := by
  unfold mutateArm
  rw [optionTraverse_eq_some, List.forall₂_iff_get]
  refine ⟨by simp, fun i h1 h2 => ?_⟩
  rw [List.get_eq_getElem, List.get_eq_getElem, List.getElem_range,
    List.getElem?_eq_getElem h2]
  simp only
  rw [if_neg (by rw [hrate]; exact not_lt.mpr (hwf i))]

theorem mutateArm_some_spec {ga : GeneticAlgorithm} {u adj : Nat → ℚ}
    {arm na : Arm} (h : mutateArm ga u adj arm = some na) :
    na.length = arm.length ∧
    ∀ i, i < arm.length →
      (u i < ga.mutation_rate →
        ∃ lo hi, ga.lower_bound[i]? = some lo ∧ ga.upper_bound[i]? = some hi ∧
          0 ≤ ga.mutation_span * ((hi : ℚ) - (lo : ℚ)) ∧
          na[i]? = some (mutGene lo hi (arm.getD i 0) (adj i))) ∧
      (¬ u i < ga.mutation_rate → na[i]? = arm[i]?) := by
  unfold mutateArm at h
  have h2 := optionTraverse_eq_some.mp h
  rw [List.forall₂_iff_get] at h2
  obtain ⟨hlen, hget⟩ := h2
  rw [List.length_range] at hlen
  refine ⟨hlen.symm, fun i hi => ?_⟩
  have hi1 : i < (List.range arm.length).length := by
    rw [List.length_range]; exact hi
  have hi2 : i < na.length := by omega
  have hR := hget i hi1 hi2
  rw [List.get_eq_getElem, List.get_eq_getElem, List.getElem_range,
    List.getElem?_eq_getElem hi] at hR
  simp only at hR
  constructor
  · intro hsel
    rw [if_pos hsel] at hR
    cases hlo : ga.lower_bound[i]? with
    | none => rw [hlo] at hR; exact absurd hR (by simp)
    | some lo =>
      cases hhi : ga.upper_bound[i]? with
      | none => rw [hlo, hhi] at hR; exact absurd hR (by simp)
      | some hb =>
        rw [hlo, hhi] at hR
        simp only at hR
        split at hR
        · rename_i hguard
          refine ⟨lo, hb, rfl, rfl, hguard, ?_⟩
          rw [List.getElem?_eq_getElem hi2, ← hR,
            List.getD_eq_getElem?_getD, List.getElem?_eq_getElem hi]
          rfl
        · exact absurd hR (by simp)
  · intro hsel
    rw [if_neg hsel] at hR
    rw [List.getElem?_eq_getElem hi2, List.getElem?_eq_getElem hi, ← hR]

theorem mutateArm_inBounds {ga : GeneticAlgorithm} {u adj : Nat → ℚ}
    {arm na : Arm} (hib : InBounds ga arm) (h : mutateArm ga u adj arm = some na) :
    InBounds ga na := by
  obtain ⟨hal, hag⟩ := hib
  obtain ⟨hnl, hspec⟩ := mutateArm_some_spec h
  refine ⟨by omega, fun i hi => ?_⟩
  have hilen : i < arm.length := by omega
  rcases lt_or_le (u i) ga.mutation_rate with hsel | hsel
  · obtain ⟨lo, hb, hlo, hhi, _, hna⟩ := (hspec i hilen).1 hsel
    have hglo : ga.lower_bound.getD i 0 = lo := by
      rw [List.getD_eq_getElem?_getD, hlo]; rfl
    have hghi : ga.upper_bound.getD i 0 = hb := by
      rw [List.getD_eq_getElem?_getD, hhi]; rfl
    have hbound := hag i hi
    rw [hglo, hghi] at hbound ⊢
    have hna2 : na.getD i 0 = mutGene lo hb (arm.getD i 0) (adj i) := by
      rw [List.getD_eq_getElem?_getD, hna]; rfl
    rw [hna2]
    exact mutGene_mem (by omega)
  · have hna := (hspec i hilen).2 (not_lt.mpr hsel)
    have hgd : na.getD i 0 = arm.getD i 0 := by
      rw [List.getD_eq_getElem?_getD, hna, ← List.getD_eq_getElem?_getD]
    rw [hgd]
    exact hag i hi

theorem mutateLoop_inBounds {ga : GeneticAlgorithm} {us adjs : Nat → Nat → ℚ} :
    ∀ (l : List Arm) (idx : Nat) (seen out res : List Arm),
      (∀ a ∈ l, InBounds ga a) → (∀ a ∈ out, InBounds ga a) →
      mutateLoop ga us adjs l idx seen out = some res →
      ∀ a ∈ res, InBounds ga a := by
  intro l
  induction l with
  | nil =>
    intro idx seen out res _ hout h
    obtain rfl : out = res := Option.some.inj h
    exact hout
  | cons a t ih =>
    intro idx seen out res hl hout h
    rw [mutateLoop] at h
    cases hna : mutateArm ga (us idx) (adjs idx) a with
    | none => rw [hna] at h; exact absurd h (by simp)
    | some na =>
      rw [hna] at h
      simp only at h
      have hnai : InBounds ga na :=
        mutateArm_inBounds (hl a (List.mem_cons_self a t)) hna
      have hlt : ∀ x ∈ t, InBounds ga x := fun x hx => hl x (List.mem_cons_of_mem a hx)
      split at h
      · exact ih (idx + 1) seen out res hlt hout h
      · refine ih (idx + 1) (na :: seen) (out ++ [na]) res hlt ?_ h
        intro x hx
        rcases List.mem_append.mp hx with hx | hx
        · exact hout x hx
        · obtain rfl : x = na := by simpa using hx
          exact hnai

theorem mutateLoop_dedup {ga : GeneticAlgorithm} {us adjs : Nat → Nat → ℚ}
    (hma : ∀ idx a, mutateArm ga (us idx) (adjs idx) a = some a) :
    ∀ (l : List Arm) (idx : Nat) (seen out : List Arm),
      mutateLoop ga us adjs l idx seen out =
        some (out ++ dedupFirst (l.filter (fun x => x ∉ seen))) := by
  intro l
  induction l with
  | nil =>
    intro idx seen out
    rw [mutateLoop]
    simp [dedupFirst]
  | cons a t ih =>
    intro idx seen out
    rw [mutateLoop, hma idx a]
    simp only
    split
    · rename_i hmem
      rw [ih (idx + 1) seen out]
      have hfa : (a :: t).filter (fun x => x ∉ seen) = t.filter (fun x => x ∉ seen) := by
        rw [List.filter_cons, if_neg (by simpa using hmem)]
      rw [hfa]
    · rename_i hmem
      rw [ih (idx + 1) (a :: seen) (out ++ [a])]
      have hfa : (a :: t).filter (fun x => x ∉ seen) =
          a :: t.filter (fun x => x ∉ seen) := by
        rw [List.filter_cons, if_pos (by simpa using hmem)]
      rw [hfa]
      have hstep : dedupFirst (a :: t.filter (fun x => x ∉ seen)) =
          a :: dedupFirst ((t.filter (fun x => x ∉ seen)).filter (fun x => x ≠ a)) := by
        rw [dedupFirst]
      rw [hstep]
      have hff : (t.filter (fun x => x ∉ seen)).filter (fun x => x ≠ a) =
          t.filter (fun x => x ∉ a :: seen) := by
        rw [List.filter_filter]
        refine List.filter_congr ?_
        intro x _
        rcases Decidable.em (x = a) with hxa | hxa
        · subst hxa
          simp
        · rcases Decidable.em (x ∈ seen) with hxs | hxs <;>
            simp [hxa, hxs, List.mem_cons]
      rw [hff, List.append_assoc, List.singleton_append]

theorem optionTraverse_none {α β : Type} {f : α → Option β} {a : α} :
    ∀ {l : List α}, a ∈ l → f a = none → optionTraverse f l = none := by
  intro l
  induction l with
  | nil => intro h; exact absurd h (by simp)
  | cons b t ih =>
    intro hmem hfa
    rw [optionTraverse]
    rcases List.mem_cons.mp hmem with rfl | hmem
    · rw [hfa]
    · cases hfb : f b with
      | none => rfl
      | some y =>
        rw [ih hmem hfa]

theorem generateLoop_none_of_genCandidate_none {ga : GeneticAlgorithm}
    {ds : Nat → Nat → Nat} (hps : 0 < ga.population_size)
    (hgc : ∀ attempt, genCandidate ga (ds attempt) = none) :
    ∀ fuel attempt, generateLoop ga ds fuel attempt [] = none := by
  intro fuel attempt
  cases fuel with
  | zero =>
    rw [generateLoop, if_pos (by simpa using hps)]
  | succ fuel =>
    rw [generateLoop, if_pos (by simpa using hps), hgc attempt]

/-! ## Claim theorems -/

/-- C1: whenever `generate_new_population` returns (the loop terminates on the
supplied entropy without panicking), the result has exactly `population_size`
candidates, pairwise distinct by element-wise vector equality, each of length
`dimension` with gene `i` inside `[lower_bound[i], upper_bound[i]]`. -/
theorem generate_new_population_spec (ga : GeneticAlgorithm) (ds : Nat → Nat → Nat)
    (fuel : Nat) (pop : List Arm)
    (h : ga.generate_new_population ds fuel = some pop) :
    pop.length = ga.population_size ∧ pop.Nodup ∧ ∀ arm ∈ pop, InBounds ga arm :=
  generateLoop_invariant ga ds fuel 0 [] pop (by simp) (by simp) (by simp) h

theorem generate_new_population_spec_witness :
    ([[0], [1]] : List Arm).length =
        (GeneticAlgorithm.new 2 0 0 0 100 1 [0] [1]).population_size ∧
      ([[0], [1]] : List Arm).Nodup ∧
      ∀ arm ∈ ([[0], [1]] : List Arm),
        InBounds (GeneticAlgorithm.new 2 0 0 0 100 1 [0] [1]) arm :=
  generate_new_population_spec (GeneticAlgorithm.new 2 0 0 0 100 1 [0] [1])
    (fun a _ => a) 3 [[0], [1]] (by decide)

/-- C7: a fresh `GeneticAlgorithm` has `simulations_used = 0`;
`update_simulations_used n` adds exactly `n` (whenever the `i32` sum does not
overflow) with no upper clamp; `budget_reached` holds iff
`simulations_used >= max_simulations`; and with `max_simulations = 100`,
after reporting 5 evaluations the predicate is false and after a further 95
it is true. -/
theorem budget_accounting :
    (∀ (ps : Nat) (mr cr ms : ℚ) (maxs : Int) (dim : Nat) (lb ub : List Int),
        (GeneticAlgorithm.new ps mr cr ms maxs dim lb ub).simulations_used = 0) ∧
    (∀ (ga : GeneticAlgorithm) (n : Int), InI32 (ga.simulations_used + n) →
        (ga.update_simulations_used n).simulations_used = ga.simulations_used + n) ∧
    (∀ ga : GeneticAlgorithm,
        ga.budget_reached = true ↔ ga.max_simulations ≤ ga.simulations_used) ∧
    (((GeneticAlgorithm.new 10 0 0 0 100 2 [0, 0] [10, 10]).update_simulations_used
          5).budget_reached = false ∧
      (((GeneticAlgorithm.new 10 0 0 0 100 2 [0, 0] [10, 10]).update_simulations_used
            5).update_simulations_used 95).budget_reached = true) := by
  refine ⟨fun ps mr cr ms maxs dim lb ub => rfl, ?_, ?_, by decide, by decide⟩
  · intro ga n h
    exact wrap32_of_inI32 h
  · intro ga
    simp [GeneticAlgorithm.budget_reached]

theorem budget_accounting_witness :
    ((GeneticAlgorithm.new 10 0 0 0 100 2 [0, 0] [10, 10]).update_simulations_used
        5).simulations_used =
      (GeneticAlgorithm.new 10 0 0 0 100 2 [0, 0] [10, 10]).simulations_used + 5 :=
  budget_accounting.2.1 (GeneticAlgorithm.new 10 0 0 0 100 2 [0, 0] [10, 10]) 5
    (by decide)

/-- C8 counterexample: `update_simulations_used` accepts a negative `i32`
argument, and a negative report strictly decreases `simulations_used`, so the
counter is not monotonically non-decreasing under arbitrary argument counts. -/
theorem simulations_used_decreases_on_negative_update :
    ((GeneticAlgorithm.new 10 0 0 0 100 2 [0, 0] [10, 10]).update_simulations_used
        (-5)).simulations_used <
      (GeneticAlgorithm.new 10 0 0 0 100 2 [0, 0] [10, 10]).simulations_used := by
  decide

/-- C8 (amended): `simulations_used` is non-decreasing across
`update_simulations_used` provided the reported count is non-negative and the
`i32` addition does not overflow; no other embedded operation writes the
counter. -/
theorem simulations_used_monotone_of_nonneg (ga : GeneticAlgorithm) (n : Int)
    (hlo : -(2 ^ 31) ≤ ga.simulations_used) (hn : 0 ≤ n)
    (hov : ga.simulations_used + n < 2 ^ 31) :
    ga.simulations_used ≤ (ga.update_simulations_used n).simulations_used := by
  have h : (ga.update_simulations_used n).simulations_used = ga.simulations_used + n :=
    wrap32_of_inI32 ⟨by omega, hov⟩
  omega

/-- C3: for a population of the configured (even) size with `dimension ≥ 2`,
whenever the per-pair uniform draw selects crossover for pair `(2k, 2k+1)`,
there is a crossover point `j ∈ {1, …, dimension-1}` such that the two
emitted children are parent A's genes `[0, j)` ++ parent B's genes
`[j, dimension)` and vice versa; the output has the input's size and pair
order follows input order. -/
theorem crossover_pairs_spec (ga : GeneticAlgorithm) (pop : List Arm)
    (us : Nat → ℚ) (ds : Nat → Nat) (out : List Arm)
    (hlen : pop.length = ga.population_size)
    (heven : ga.population_size % 2 = 0)
    (hdim : 2 ≤ ga.dimension)
    (harms : ∀ a ∈ pop, a.length = ga.dimension)
    (h : ga.crossover pop us ds = some out) :
    out.length = pop.length ∧
    ∀ k, 2 * k + 1 < ga.population_size → us k < ga.crossover_rate →
      ∃ j, 1 ≤ j ∧ j ≤ ga.dimension - 1 ∧
      ∃ a b, pop[2 * k]? = some a ∧ pop[2 * k + 1]? = some b ∧
        out[2 * k]? = some (a.take j ++ b.drop j) ∧
        out[2 * k + 1]? = some (b.take j ++ a.drop j) := by
  unfold GeneticAlgorithm.crossover at h
  constructor
  · rw [crossoverGo_length _ _ _ h, hlen]
    omega
  · intro k hk hsel
    obtain ⟨hd, hhd, h0, h1⟩ := crossoverGo_getPairs _ _ _ h k (by omega)
    rw [Nat.zero_add] at hhd
    have hka : 2 * k < pop.length := by omega
    have hkb : 2 * k + 1 < pop.length := by omega
    have ha : pop[2 * k]? = some pop[2 * k] := List.getElem?_eq_getElem hka
    have hb : pop[2 * k + 1]? = some pop[2 * k + 1] := List.getElem?_eq_getElem hkb
    unfold crossPairHead at hhd
    rw [if_pos hsel, ha, hb] at hhd
    cases hsw : genRangeNat 1 (ga.dimension - 1) (ds k) with
    | none => rw [hsw] at hhd; exact absurd hhd (by simp)
    | some swapRv =>
      rw [hsw] at hhd
      simp only at hhd
      obtain ⟨hj1, hj2⟩ := genRangeNat_some hsw
      have hla : (pop[2 * k] : Arm).length = ga.dimension :=
        harms _ (List.getElem?_mem ha)
      have hlb : (pop[2 * k + 1] : Arm).length = ga.dimension :=
        harms _ (List.getElem?_mem hb)
      have hshape := crossChildren_some hj1 hj2 hhd
      have htb : ((pop[2 * k + 1] : Arm).drop swapRv).take (ga.dimension - swapRv) =
          (pop[2 * k + 1] : Arm).drop swapRv :=
        List.take_of_length_le (by rw [List.length_drop, hlb])
      have hta : ((pop[2 * k] : Arm).drop swapRv).take (ga.dimension - swapRv) =
          (pop[2 * k] : Arm).drop swapRv :=
        List.take_of_length_le (by rw [List.length_drop, hla])
      refine ⟨swapRv, hj1, hj2, pop[2 * k], pop[2 * k + 1], ha, hb, ?_, ?_⟩
      · rw [h0, hshape, htb]
        rfl
      · rw [h1, hshape, hta]
        rfl

theorem crossover_pairs_spec_witness :
    ([[0, 3], [2, 1]] : List Arm).length = ([[0, 1], [2, 3]] : List Arm).length ∧
    ∀ k, 2 * k + 1 < (GeneticAlgorithm.new 2 0 1 0 100 2 [0, 0] [5, 5]).population_size →
      (fun _ => (0 : ℚ)) k < (GeneticAlgorithm.new 2 0 1 0 100 2 [0, 0] [5, 5]).crossover_rate →
      ∃ j, 1 ≤ j ∧ j ≤ (GeneticAlgorithm.new 2 0 1 0 100 2 [0, 0] [5, 5]).dimension - 1 ∧
      ∃ a b, ([[0, 1], [2, 3]] : List Arm)[2 * k]? = some a ∧
        ([[0, 1], [2, 3]] : List Arm)[2 * k + 1]? = some b ∧
        ([[0, 3], [2, 1]] : List Arm)[2 * k]? = some (a.take j ++ b.drop j) ∧
        ([[0, 3], [2, 1]] : List Arm)[2 * k + 1]? = some (b.take j ++ a.drop j) :=
  crossover_pairs_spec (GeneticAlgorithm.new 2 0 1 0 100 2 [0, 0] [5, 5])
    [[0, 1], [2, 3]] (fun _ => (0 : ℚ)) (fun _ => 0) [[0, 3], [2, 1]]
    (by decide) (by decide) (by decide) (by decide) (by decide)

/-- C4: with `crossover_rate = 0` (uniform draws lie in `[0,1)`), `crossover`
on a population of the configured even size returns the input unchanged,
element-wise and in order. -/
theorem crossover_rate_zero_identity (ga : GeneticAlgorithm) (pop : List Arm)
    (us : Nat → ℚ) (ds : Nat → Nat)
    (hrate : ga.crossover_rate = 0) (hwf : ∀ k, 0 ≤ us k)
    (hlen : pop.length = ga.population_size) (heven : ga.population_size % 2 = 0) :
    ga.crossover pop us ds = some pop := by
  have hnot : ∀ m, ¬ us m < ga.crossover_rate := by
    intro m
    rw [hrate]
    exact not_lt.mpr (hwf m)
  unfold GeneticAlgorithm.crossover
  rw [crossoverGo_copy hnot ((ga.population_size + 1) / 2) 0 (by omega),
    List.drop_zero, show 2 * ((ga.population_size + 1) / 2) = ga.population_size by omega,
    List.take_of_length_le (le_of_eq hlen)]

theorem crossover_rate_zero_identity_witness :
    (GeneticAlgorithm.new 2 0 0 0 100 2 [0, 0] [5, 5]).crossover
        [[0, 1], [2, 3]] (fun _ => (0 : ℚ)) (fun _ => 0) = some [[0, 1], [2, 3]] :=
  crossover_rate_zero_identity (GeneticAlgorithm.new 2 0 0 0 100 2 [0, 0] [5, 5])
    [[0, 1], [2, 3]] (fun _ => (0 : ℚ)) (fun _ => 0)
    (by decide) (fun _ => le_refl (0 : ℚ)) (by decide) (by decide)

/-- C10: `crossover` reads exactly the first `population_size` input elements
(the configured size, not the input's length): extra elements are ignored
(the result on `pop` equals the result on `pop.take population_size`), an
input of at least `population_size` elements yields an output of exactly
`population_size` candidates, and a shorter input makes the pair indexing
go out of range (a panic, `none`). -/
theorem crossover_reads_first_population_size (ga : GeneticAlgorithm)
    (pop : List Arm) (us : Nat → ℚ) (ds : Nat → Nat)
    (hdim : 2 ≤ ga.dimension) (heven : ga.population_size % 2 = 0)
    (harms : ∀ a ∈ pop, a.length = ga.dimension) :
    ga.crossover (pop.take ga.population_size) us ds = ga.crossover pop us ds ∧
    (ga.population_size ≤ pop.length →
      ∃ out, ga.crossover pop us ds = some out ∧ out.length = ga.population_size) ∧
    (pop.length < ga.population_size → ga.crossover pop us ds = none) := by
  refine ⟨?_, ?_, ?_⟩
  · unfold GeneticAlgorithm.crossover
    exact crossoverGo_take ((ga.population_size + 1) / 2) 0 (by omega)
  · intro hge
    obtain ⟨out, hout⟩ :=
      crossoverGo_some hdim harms ((ga.population_size + 1) / 2) 0 (by omega)
    refine ⟨out, hout, ?_⟩
    rw [crossoverGo_length _ _ _ hout]
    omega
  · intro hlt
    have hps : 1 ≤ ga.population_size := by omega
    obtain ⟨k, hk⟩ : ∃ k, (ga.population_size + 1) / 2 = k + 1 :=
      ⟨(ga.population_size + 1) / 2 - 1, by omega⟩
    unfold GeneticAlgorithm.crossover
    rw [hk]
    exact crossoverGo_none hdim harms k 0 (by omega)

theorem crossover_reads_first_population_size_witness :
    (GeneticAlgorithm.new 2 0 0 0 100 2 [0, 0] [5, 5]).crossover
        (([[0, 1], [2, 3], [4, 5]] : List Arm).take
          (GeneticAlgorithm.new 2 0 0 0 100 2 [0, 0] [5, 5]).population_size)
        (fun _ => (0 : ℚ)) (fun _ => 0) =
      (GeneticAlgorithm.new 2 0 0 0 100 2 [0, 0] [5, 5]).crossover
        [[0, 1], [2, 3], [4, 5]] (fun _ => (0 : ℚ)) (fun _ => 0) ∧
    ((GeneticAlgorithm.new 2 0 0 0 100 2 [0, 0] [5, 5]).population_size ≤
        ([[0, 1], [2, 3], [4, 5]] : List Arm).length →
      ∃ out, (GeneticAlgorithm.new 2 0 0 0 100 2 [0, 0] [5, 5]).crossover
          [[0, 1], [2, 3], [4, 5]] (fun _ => (0 : ℚ)) (fun _ => 0) = some out ∧
        out.length = (GeneticAlgorithm.new 2 0 0 0 100 2 [0, 0] [5, 5]).population_size) ∧
    (([[0, 1], [2, 3], [4, 5]] : List Arm).length <
        (GeneticAlgorithm.new 2 0 0 0 100 2 [0, 0] [5, 5]).population_size →
      (GeneticAlgorithm.new 2 0 0 0 100 2 [0, 0] [5, 5]).crossover
        [[0, 1], [2, 3], [4, 5]] (fun _ => (0 : ℚ)) (fun _ => 0) = none) :=
  crossover_reads_first_population_size
    (GeneticAlgorithm.new 2 0 0 0 100 2 [0, 0] [5, 5])
    [[0, 1], [2, 3], [4, 5]] (fun _ => (0 : ℚ)) (fun _ => 0)
    (by decide) (by decide) (by decide)

/-- C2: every candidate produced by `generate_new_population`, `crossover` or
`mutate` (the latter two under the precondition that every input candidate's
genes lie within bounds) has every gene `i` within
`[lower_bound[i], upper_bound[i]]`. -/
theorem bounds_invariant (ga : GeneticAlgorithm) :
    (∀ (ds : Nat → Nat → Nat) (fuel : Nat) (pop : List Arm),
        ga.generate_new_population ds fuel = some pop →
        ∀ arm ∈ pop, InBounds ga arm) ∧
    (∀ (pop : List Arm) (us : Nat → ℚ) (ds : Nat → Nat) (out : List Arm),
        (∀ a ∈ pop, InBounds ga a) → ga.crossover pop us ds = some out →
        ∀ arm ∈ out, InBounds ga arm) ∧
    (∀ (pop : List Arm) (us adjs : Nat → Nat → ℚ) (out : List Arm),
        (∀ a ∈ pop, InBounds ga a) → ga.mutate pop us adjs = some out →
        ∀ arm ∈ out, InBounds ga arm) := by
  refine ⟨?_, ?_, ?_⟩
  · intro ds fuel pop h
    exact (generateLoop_invariant ga ds fuel 0 [] pop (by simp) (by simp) (by simp) h).2.2
  · intro pop us ds out hib h
    exact crossoverGo_inBounds hib _ _ out h
  · intro pop us adjs out hib h
    exact mutateLoop_inBounds pop 0 [] [] out hib (by simp) h

theorem bounds_invariant_witness :
    (∀ arm ∈ ([[0, 1], [1, 2]] : List Arm),
        InBounds (GeneticAlgorithm.new 2 0 0 0 100 2 [0, 0] [5, 5]) arm) ∧
    (∀ arm ∈ ([[0, 1], [2, 3]] : List Arm),
        InBounds (GeneticAlgorithm.new 2 0 0 0 100 2 [0, 0] [5, 5]) arm) ∧
    (∀ arm ∈ ([[4, 5], [2, 3]] : List Arm),
        InBounds (GeneticAlgorithm.new 2 0 0 0 100 2 [0, 0] [5, 5]) arm) :=
  ⟨(bounds_invariant (GeneticAlgorithm.new 2 0 0 0 100 2 [0, 0] [5, 5])).1
      (fun a j => a + j) 3 [[0, 1], [1, 2]] (by decide),
    (bounds_invariant (GeneticAlgorithm.new 2 0 0 0 100 2 [0, 0] [5, 5])).2.1
      [[0, 1], [2, 3]] (fun _ => (0 : ℚ)) (fun _ => 0) [[0, 1], [2, 3]]
      (by decide) (by decide),
    (bounds_invariant (GeneticAlgorithm.new 2 0 0 0 100 2 [0, 0] [5, 5])).2.2
      [[4, 5], [2, 3]] (fun _ _ => (0 : ℚ)) (fun _ _ => (0 : ℚ)) [[4, 5], [2, 3]]
      (by decide) (by decide)⟩

/-- C5: with `mutation_rate = 0` (uniform draws lie in `[0,1)`), `mutate`
leaves every vector unchanged and in input order, except that a candidate
equal to an earlier-emitted one in the same call is dropped: the result is
the input's first-occurrence deduplication. -/
theorem mutate_rate_zero_dedup (ga : GeneticAlgorithm) (pop : List Arm)
    (us adjs : Nat → Nat → ℚ) (hrate : ga.mutation_rate = 0)
    (hwf : ∀ i j, 0 ≤ us i j) :
    ga.mutate pop us adjs = some (dedupFirst pop) := by
  have hma : ∀ idx a, mutateArm ga (us idx) (adjs idx) a = some a :=
    fun idx a => mutateArm_rate_nonpos hrate (hwf idx)
  unfold GeneticAlgorithm.mutate
  rw [mutateLoop_dedup hma pop 0 [] [], List.nil_append]
  have hf : pop.filter (fun x => x ∉ ([] : List Arm)) = pop := by
    simp
  rw [hf]

theorem mutate_rate_zero_dedup_witness :
    (GeneticAlgorithm.new 3 0 0 0 100 1 [0] [5]).mutate
        [[1], [1], [2]] (fun _ _ => (0 : ℚ)) (fun _ _ => (0 : ℚ)) =
      some (dedupFirst [[1], [1], [2]]) :=
  mutate_rate_zero_dedup (GeneticAlgorithm.new 3 0 0 0 100 1 [0] [5])
    [[1], [1], [2]] (fun _ _ => (0 : ℚ)) (fun _ _ => (0 : ℚ))
    (by decide) (fun _ _ => le_refl (0 : ℚ))

/-- C6: in `mutate`, a gene selected for mutation becomes
`(gene + perturbation)` clamped to `[lower_bound[i], upper_bound[i]]` in
floating point and only then truncated toward zero; clamping precedes
truncation, so the result is always within bounds even for far-out
perturbations, and a perturbation landing on or beyond a bound yields that
bound exactly. -/
theorem mutate_clamp_before_truncate (ga : GeneticAlgorithm) (u adj : Nat → ℚ)
    (arm na : Arm) (i : Nat) (lo ub : Int)
    (h : mutateArm ga u adj arm = some na)
    (hilen : i < arm.length)
    (hsel : u i < ga.mutation_rate)
    (hlo : ga.lower_bound[i]? = some lo) (hub : ga.upper_bound[i]? = some ub) :
    na[i]? = some (ratTrunc (min (max ((arm.getD i 0 : ℚ) + adj i) (lo : ℚ)) (ub : ℚ))) ∧
    (lo ≤ ub → lo ≤ mutGene lo ub (arm.getD i 0) (adj i) ∧
      mutGene lo ub (arm.getD i 0) (adj i) ≤ ub) ∧
    ((arm.getD i 0 : ℚ) + adj i = (ub : ℚ) → mutGene lo ub (arm.getD i 0) (adj i) = ub) ∧
    ((ub : ℚ) ≤ (arm.getD i 0 : ℚ) + adj i → mutGene lo ub (arm.getD i 0) (adj i) = ub) ∧
    ((arm.getD i 0 : ℚ) + adj i ≤ (lo : ℚ) → lo ≤ ub →
      mutGene lo ub (arm.getD i 0) (adj i) = lo) := by
  obtain ⟨_, hspec⟩ := mutateArm_some_spec h
  obtain ⟨lo', ub', hlo', hub', _, hna⟩ := (hspec i hilen).1 hsel
  obtain rfl : lo' = lo := Option.some.inj (hlo'.symm.trans hlo)
  obtain rfl : ub' = ub := Option.some.inj (hub'.symm.trans hub)
  refine ⟨by simpa [mutGene] using hna, fun hle => mutGene_mem hle, ?_, ?_, ?_⟩
  · intro heq
    unfold mutGene
    rw [heq, min_eq_right (le_max_left _ _), ratTrunc_intCast]
  · intro hge
    unfold mutGene
    rw [min_eq_right (le_trans hge (le_max_left _ _)), ratTrunc_intCast]
  · intro hle hlu
    unfold mutGene
    rw [max_eq_right hle, min_eq_left (by exact_mod_cast hlu), ratTrunc_intCast]

theorem mutate_clamp_before_truncate_witness :
    ([mutGene 0 1 0 0] : Arm)[0]? =
      some (ratTrunc (min (max (((0 : Int) : ℚ) + 0) ((0 : Int) : ℚ)) ((1 : Int) : ℚ))) ∧
    ((0 : Int) ≤ 1 → (0 : Int) ≤ mutGene 0 1 0 0 ∧ mutGene 0 1 0 0 ≤ 1) ∧
    (((0 : Int) : ℚ) + 0 = ((1 : Int) : ℚ) → mutGene 0 1 0 0 = 1) ∧
    (((1 : Int) : ℚ) ≤ ((0 : Int) : ℚ) + 0 → mutGene 0 1 0 0 = 1) ∧
    (((0 : Int) : ℚ) + 0 ≤ ((0 : Int) : ℚ) → (0 : Int) ≤ 1 → mutGene 0 1 0 0 = 0) := by
  have hma : mutateArm (GeneticAlgorithm.new 1 1 0 0 100 1 [0] [1])
      (fun _ => (0 : ℚ)) (fun _ => (0 : ℚ)) [0] = some [mutGene 0 1 0 0] := by
    simp [mutateArm, optionTraverse, List.range_succ, GeneticAlgorithm.new, zero_lt_one]
  exact mutate_clamp_before_truncate (GeneticAlgorithm.new 1 1 0 0 100 1 [0] [1])
    (fun _ => (0 : ℚ)) (fun _ => (0 : ℚ)) [0] [mutGene 0 1 0 0] 0 0 1 hma
    (by decide) (by decide) (by decide) (by decide)

/-- C9 counterexample: none of the listed precondition violations is detected
or reported as an invalid-configuration error.  Construction with
`lower_bound[0] = 5 > 0 = upper_bound[0]` succeeds and stores the invalid
bounds verbatim; the violation only surfaces later as a panic (`none`) in
`generate_new_population`; `crossover` with odd `population_size` panics on
out-of-range indexing; `crossover` with `dimension = 1` panics inside
`gen_range` on an empty range. -/
theorem precondition_violations_not_signalled :
    (GeneticAlgorithm.new 2 0 0 0 100 1 [5] [0]).lower_bound = [5] ∧
    (GeneticAlgorithm.new 2 0 0 0 100 1 [5] [0]).upper_bound = [0] ∧
    (GeneticAlgorithm.new 2 0 0 0 100 1 [5] [0]).generate_new_population
      (fun _ _ => 0) 5 = none ∧
    (GeneticAlgorithm.new 3 0 0 0 100 2 [0, 0] [1, 1]).crossover
      [[0, 0], [0, 0], [0, 0]] (fun _ => (0 : ℚ)) (fun _ => 0) = none ∧
    (GeneticAlgorithm.new 2 0 1 0 100 1 [0] [1]).crossover
      [[0], [0]] (fun _ => (0 : ℚ)) (fun _ => 0) = none := by
  refine ⟨rfl, rfl, by decide, by decide, by decide⟩

/-- C9 (amended): the embedded precondition violations are not reported as
configuration errors; instead, construction always succeeds with the fields
stored verbatim, and the violations surface as panics (`none`) in the
operation that trips over them: inverted bounds make every candidate draw of
`generate_new_population` panic, an odd `population_size` makes `crossover`
index past the end of the population, and `dimension < 2` makes the
crossover-point draw `gen_range(1..=0)` panic whenever crossover is
selected. -/
theorem precondition_violations_panic :
    (∀ (ps : Nat) (mr cr ms : ℚ) (maxs : Int) (dim : Nat) (lb ub : List Int),
        (GeneticAlgorithm.new ps mr cr ms maxs dim lb ub).lower_bound = lb ∧
        (GeneticAlgorithm.new ps mr cr ms maxs dim lb ub).upper_bound = ub ∧
        (GeneticAlgorithm.new ps mr cr ms maxs dim lb ub).dimension = dim ∧
        (GeneticAlgorithm.new ps mr cr ms maxs dim lb ub).population_size = ps) ∧
    (∀ (ga : GeneticAlgorithm) (ds : Nat → Nat → Nat) (fuel : Nat) (i : Nat)
        (lo ub : Int), i < ga.dimension →
        ga.lower_bound[i]? = some lo → ga.upper_bound[i]? = some ub → ub < lo →
        0 < ga.population_size →
        ga.generate_new_population ds fuel = none) ∧
    (∀ (ga : GeneticAlgorithm) (pop : List Arm) (us : Nat → ℚ) (ds : Nat → Nat),
        2 ≤ ga.dimension → (∀ a ∈ pop, a.length = ga.dimension) →
        ga.population_size % 2 = 1 → pop.length = ga.population_size →
        ga.crossover pop us ds = none) ∧
    (∀ (ga : GeneticAlgorithm) (pop : List Arm) (us : Nat → ℚ) (ds : Nat → Nat),
        ga.dimension < 2 → us 0 < ga.crossover_rate → 0 < ga.population_size →
        ga.crossover pop us ds = none) := by
  refine ⟨fun ps mr cr ms maxs dim lb ub => ⟨rfl, rfl, rfl, rfl⟩, ?_, ?_, ?_⟩
  · intro ga ds fuel i lo ub hi hlo hub hinv hps
    have hgc : ∀ attempt, genCandidate ga (ds attempt) = none := by
      intro attempt
      refine optionTraverse_none (a := i) (by simpa using hi) ?_
      rw [hlo, hub]
      simp only
      exact if_neg (by omega)
    exact generateLoop_none_of_genCandidate_none hps hgc fuel 0
  · intro ga pop us ds hdim harms hodd hlen
    have hps : 1 ≤ ga.population_size := by omega
    obtain ⟨k, hk⟩ : ∃ k, (ga.population_size + 1) / 2 = k + 1 :=
      ⟨(ga.population_size + 1) / 2 - 1, by omega⟩
    unfold GeneticAlgorithm.crossover
    rw [hk]
    exact crossoverGo_none hdim harms k 0 (by omega)
  · intro ga pop us ds hdim hsel hps
    obtain ⟨k, hk⟩ : ∃ k, (ga.population_size + 1) / 2 = k + 1 :=
      ⟨(ga.population_size + 1) / 2 - 1, by omega⟩
    unfold GeneticAlgorithm.crossover
    rw [hk, crossoverGo]
    have hhd : crossPairHead ga pop us ds 0 = none := by
      unfold crossPairHead
      rw [if_pos hsel, show genRangeNat 1 (ga.dimension - 1) (ds 0) = none from
        if_neg (by omega)]
    rw [hhd]

theorem precondition_violations_panic_witness :
    ((GeneticAlgorithm.new 2 0 0 0 100 1 [5] [0]).lower_bound = [5] ∧
      (GeneticAlgorithm.new 2 0 0 0 100 1 [5] [0]).upper_bound = [0] ∧
      (GeneticAlgorithm.new 2 0 0 0 100 1 [5] [0]).dimension = 1 ∧
      (GeneticAlgorithm.new 2 0 0 0 100 1 [5] [0]).population_size = 2) ∧
    (GeneticAlgorithm.new 2 0 0 0 100 1 [5] [0]).generate_new_population
      (fun _ _ => 0) 7 = none ∧
    (GeneticAlgorithm.new 3 0 0 0 100 2 [0, 0] [1, 1]).crossover
      [[0, 0], [0, 0], [0, 0]] (fun _ => (0 : ℚ)) (fun _ => 0) = none ∧
    (GeneticAlgorithm.new 2 0 1 0 100 1 [0] [1]).crossover
      [[0], [0]] (fun _ => (0 : ℚ)) (fun _ => 0) = none :=
  ⟨precondition_violations_panic.1 2 0 0 0 100 1 [5] [0],
    precondition_violations_panic.2.1 (GeneticAlgorithm.new 2 0 0 0 100 1 [5] [0])
      (fun _ _ => 0) 7 0 5 0 (by decide) (by decide) (by decide) (by decide) (by decide),
    precondition_violations_panic.2.2.1 (GeneticAlgorithm.new 3 0 0 0 100 2 [0, 0] [1, 1])
      [[0, 0], [0, 0], [0, 0]] (fun _ => (0 : ℚ)) (fun _ => 0)
      (by decide) (by decide) (by decide) (by decide),
    precondition_violations_panic.2.2.2 (GeneticAlgorithm.new 2 0 1 0 100 1 [0] [1])
      [[0], [0]] (fun _ => (0 : ℚ)) (fun _ => 0)
      (by decide) (by decide) (by decide)⟩

theorem simulations_used_monotone_of_nonneg_witness :
    (GeneticAlgorithm.new 10 0 0 0 100 2 [0, 0] [10, 10]).simulations_used ≤
      ((GeneticAlgorithm.new 10 0 0 0 100 2 [0, 0] [10, 10]).update_simulations_used
          5).simulations_used :=
  simulations_used_monotone_of_nonneg (GeneticAlgorithm.new 10 0 0 0 100 2 [0, 0] [10, 10])
    5 (by decide) (by decide) (by decide)

end GMab
